import Mathlib

/-!
Verification of `src/settings.rs` of the kubewarden `annotations-policy`
repository.

The source file validates policy settings: a wrapper `Settings(BaseSettings)`
whose `validate` first delegates to the wrapped criterion's structural
`validate`, then checks every configured annotation name against the regex
`ANNOTATIONS_NAME_REGEX`, collecting the offenders into a single error
message.

The regex is embedded as a regular-expression AST (`RE`) matched with
Brzozowski derivatives (`reMatch`), so the pattern constant below mirrors the
source literal
`^([a-z0-9]([-a-z0-9]*[a-z0-9])?(\.[a-z0-9]([-a-z0-9]*[a-z0-9])?)*/)?[A-Za-z0-9]([A-Za-z0-9_.-]*[A-Za-z0-9])?$`
node for node.  Rust's `Regex::is_match` on an `^...$`-anchored pattern is
full-string matching, which is exactly what the derivative matcher computes.
-/

/-- Regular expressions over characters: empty language, empty string,
single-character class, alternation, concatenation, Kleene star. -/
inductive RE : Type where
  | emp : RE
  | eps : RE
  | cls : (Char → Bool) → RE
  | alt : RE → RE → RE
  | cat : RE → RE → RE
  | star : RE → RE

namespace RE

/-- Does the regular expression accept the empty string? -/
def nullable : RE → Bool
  | .emp => false
  | .eps => true
  | .cls _ => false
  | .alt r₁ r₂ => nullable r₁ || nullable r₂
  | .cat r₁ r₂ => nullable r₁ && nullable r₂
  | .star _ => true

/-- Brzozowski derivative of a regular expression by one character. -/
def derive : RE → Char → RE
  | .emp, _ => .emp
  | .eps, _ => .emp
  | .cls p, c => if p c then .eps else .emp
  | .alt r₁ r₂, c => .alt (derive r₁ c) (derive r₂ c)
  | .cat r₁ r₂, c =>
      if nullable r₁ then .alt (.cat (derive r₁ c) r₂) (derive r₂ c)
      else .cat (derive r₁ c) r₂
  | .star r, c => .cat (derive r c) (.star r)

/-- Full-string matching by iterated derivatives. -/
def reMatch (r : RE) : List Char → Bool
  | [] => nullable r
  | c :: s => reMatch (derive r c) s

/-- The language of a regular expression, as an inductive membership
relation on character lists. -/
inductive Lang : RE → List Char → Prop where
  | eps : Lang .eps []
  | cls {p : Char → Bool} {c : Char} : p c = true → Lang (.cls p) [c]
  | altl {r₁ r₂ : RE} {s : List Char} : Lang r₁ s → Lang (.alt r₁ r₂) s
  | altr {r₁ r₂ : RE} {s : List Char} : Lang r₂ s → Lang (.alt r₁ r₂) s
  | cat {r₁ r₂ : RE} {s₁ s₂ : List Char} :
      Lang r₁ s₁ → Lang r₂ s₂ → Lang (.cat r₁ r₂) (s₁ ++ s₂)
  | starNil {r : RE} : Lang (.star r) []
  | starCons {r : RE} {s₁ s₂ : List Char} :
      Lang r s₁ → Lang (.star r) s₂ → Lang (.star r) (s₁ ++ s₂)

theorem lang_emp_iff {s : List Char} : Lang .emp s ↔ False := by
  constructor
  · intro h; cases h
  · intro h; exact h.elim

theorem lang_eps_iff {s : List Char} : Lang .eps s ↔ s = [] := by
  constructor
  · intro h; cases h; rfl
  · intro h; subst h; exact Lang.eps

theorem lang_cls_iff {p : Char → Bool} {s : List Char} :
    Lang (.cls p) s ↔ ∃ c, s = [c] ∧ p c = true := by
  constructor
  · intro h; cases h with
    | cls hc => exact ⟨_, rfl, hc⟩
  · rintro ⟨c, rfl, hc⟩; exact Lang.cls hc

theorem lang_alt_iff {r₁ r₂ : RE} {s : List Char} :
    Lang (.alt r₁ r₂) s ↔ Lang r₁ s ∨ Lang r₂ s := by
  constructor
  · intro h; cases h with
    | altl h => exact Or.inl h
    | altr h => exact Or.inr h
  · rintro (h | h)
    · exact Lang.altl h
    · exact Lang.altr h

theorem lang_cat_iff {r₁ r₂ : RE} {s : List Char} :
    Lang (.cat r₁ r₂) s ↔ ∃ s₁ s₂, s = s₁ ++ s₂ ∧ Lang r₁ s₁ ∧ Lang r₂ s₂ := by
  constructor
  · intro h; cases h with
    | cat h₁ h₂ => exact ⟨_, _, rfl, h₁, h₂⟩
  · rintro ⟨s₁, s₂, rfl, h₁, h₂⟩; exact Lang.cat h₁ h₂

/-- Star elimination: any property closed under the empty string and
prepending one `r`-word holds of every word of `star r`. -/
theorem star_elim {r : RE} {w : List Char} (h : Lang (.star r) w)
    (P : List Char → Prop) (h0 : P [])
    (hstep : ∀ s₁ s₂, Lang r s₁ → P s₂ → P (s₁ ++ s₂)) : P w := by
  have aux : ∀ q w, Lang q w → q = .star r → P w := by
    intro q w hq
    induction hq with
    | eps => intro he; cases he
    | cls _ => intro he; cases he
    | altl _ _ => intro he; cases he
    | altr _ _ => intro he; cases he
    | cat _ _ _ _ => intro he; cases he
    | starNil => intro _; exact h0
    | starCons h₁ h₂ _ ih₂ =>
      intro he
      cases he
      exact hstep _ _ h₁ (ih₂ rfl)
  exact aux _ _ h rfl

theorem nullable_iff (r : RE) : nullable r = true ↔ Lang r [] := by
  induction r with
  | emp =>
    constructor
    · intro h; exact Bool.noConfusion h
    · intro h; cases h
  | eps => exact ⟨fun _ => Lang.eps, fun _ => rfl⟩
  | cls p =>
    constructor
    · intro h; exact Bool.noConfusion h
    · intro h; cases h
  | alt r₁ r₂ ih₁ ih₂ =>
    have hd : nullable (.alt r₁ r₂) = (nullable r₁ || nullable r₂) := rfl
    rw [hd, Bool.or_eq_true, ih₁, ih₂, lang_alt_iff]
  | cat r₁ r₂ ih₁ ih₂ =>
    have hd : nullable (.cat r₁ r₂) = (nullable r₁ && nullable r₂) := rfl
    rw [hd, Bool.and_eq_true, ih₁, ih₂]
    constructor
    · intro ⟨h₁, h₂⟩
      exact (List.nil_append []) ▸ Lang.cat h₁ h₂
    · intro h
      rcases lang_cat_iff.mp h with ⟨s₁, s₂, heq, h₁, h₂⟩
      rcases List.append_eq_nil.mp heq.symm with ⟨e₁, e₂⟩
      subst e₁; subst e₂
      exact ⟨h₁, h₂⟩
  | star r _ =>
    exact ⟨fun _ => Lang.starNil, fun _ => rfl⟩

/-- Backward star step for the derivative lemma: a nonempty word of
`star r` decomposes as a nonempty head word of `r` followed by a tail
word of `star r`. -/
theorem star_cons_split {r : RE} {c : Char} {s : List Char}
    (h : Lang (.star r) (c :: s)) :
    ∃ t u, s = t ++ u ∧ Lang r (c :: t) ∧ Lang (.star r) u := by
  have aux : ∀ q w, Lang q w → q = .star r → ∀ c s, w = c :: s →
      ∃ t u, s = t ++ u ∧ Lang r (c :: t) ∧ Lang (.star r) u := by
    intro q w hq
    induction hq with
    | eps => intro he; cases he
    | cls _ => intro he; cases he
    | altl _ _ => intro he; cases he
    | altr _ _ => intro he; cases he
    | cat _ _ _ _ => intro he; cases he
    | starNil =>
      intro _ c s hw; cases hw
    | starCons h₁ h₂ ih₁ ih₂ =>
      rename_i r₀ s₁ s₂
      intro he c s hw
      cases he
      cases s₁ with
      | nil =>
        simp only [List.nil_append] at hw
        exact ih₂ rfl c s hw
      | cons a t =>
        simp only [List.cons_append, List.cons.injEq] at hw
        obtain ⟨hac, hs⟩ := hw
        subst hac
        exact ⟨t, s₂, hs.symm, h₁, h₂⟩
  exact aux _ _ h rfl c s rfl

theorem derive_iff (r : RE) (c : Char) (s : List Char) :
    Lang (derive r c) s ↔ Lang r (c :: s) := by
  induction r generalizing s with
  | emp =>
    constructor
    · intro h; cases h
    · intro h; cases h
  | eps =>
    constructor
    · intro h; cases h
    · intro h; cases h
  | cls p =>
    have hd : derive (.cls p) c = if p c then RE.eps else RE.emp := rfl
    by_cases hp : p c = true
    · rw [hd, if_pos hp]
      constructor
      · intro h; cases h; exact Lang.cls hp
      · intro h; cases h; exact Lang.eps
    · rw [hd, if_neg hp]
      constructor
      · intro h; cases h
      · intro h; cases h with
        | cls hc => exact absurd hc hp
  | alt r₁ r₂ ih₁ ih₂ =>
    have hd : derive (.alt r₁ r₂) c = .alt (derive r₁ c) (derive r₂ c) := rfl
    rw [hd, lang_alt_iff, lang_alt_iff, ih₁, ih₂]
  | cat r₁ r₂ ih₁ ih₂ =>
    have hd : derive (.cat r₁ r₂) c =
        if nullable r₁ then RE.alt (.cat (derive r₁ c) r₂) (derive r₂ c)
        else RE.cat (derive r₁ c) r₂ := rfl
    by_cases hn : nullable r₁ = true
    · rw [hd, if_pos hn, lang_alt_iff]
      constructor
      · rintro (h | h)
        · rcases lang_cat_iff.mp h with ⟨s₁, s₂, rfl, h₁, h₂⟩
          exact Lang.cat ((ih₁ s₁).mp h₁) h₂
        · have h₂ := (ih₂ s).mp h
          exact (List.nil_append (c :: s)) ▸
            Lang.cat ((nullable_iff r₁).mp hn) h₂
      · intro h
        rcases lang_cat_iff.mp h with ⟨s₁, s₂, heq, h₁, h₂⟩
        cases s₁ with
        | nil =>
          simp only [List.nil_append] at heq
          subst heq
          exact Or.inr ((ih₂ s).mpr h₂)
        | cons a t =>
          simp only [List.cons_append, List.cons.injEq] at heq
          obtain ⟨hac, hs⟩ := heq
          subst hac; subst hs
          exact Or.inl (Lang.cat ((ih₁ t).mpr h₁) h₂)
    · rw [hd, if_neg hn]
      constructor
      · intro h
        rcases lang_cat_iff.mp h with ⟨s₁, s₂, rfl, h₁, h₂⟩
        exact Lang.cat ((ih₁ s₁).mp h₁) h₂
      · intro h
        rcases lang_cat_iff.mp h with ⟨s₁, s₂, heq, h₁, h₂⟩
        cases s₁ with
        | nil =>
          exact absurd ((nullable_iff r₁).mpr h₁) hn
        | cons a t =>
          simp only [List.cons_append, List.cons.injEq] at heq
          obtain ⟨hac, hs⟩ := heq
          subst hac; subst hs
          exact Lang.cat ((ih₁ t).mpr h₁) h₂
  | star r ih =>
    have hd : derive (.star r) c = .cat (derive r c) (.star r) := rfl
    rw [hd]
    constructor
    · intro h
      rcases lang_cat_iff.mp h with ⟨s₁, s₂, rfl, h₁, h₂⟩
      have : Lang (.star r) ((c :: s₁) ++ s₂) :=
        Lang.starCons ((ih s₁).mp h₁) h₂
      simpa using this
    · intro h
      rcases star_cons_split h with ⟨t, u, rfl, ht, hu⟩
      exact Lang.cat ((ih t).mpr ht) hu

/-- Correctness of the derivative matcher. -/
theorem reMatch_iff (r : RE) (s : List Char) : reMatch r s = true ↔ Lang r s := by
  induction s generalizing r with
  | nil => exact nullable_iff r
  | cons c s ih =>
    have hd : reMatch r (c :: s) = reMatch (derive r c) s := rfl
    rw [hd]
    exact (ih (derive r c)).trans (derive_iff r c s)

end RE

/-! ## Character classes of `ANNOTATIONS_NAME_REGEX`

Each `def` below embeds one bracket expression of the source pattern
`^([a-z0-9]([-a-z0-9]*[a-z0-9])?(\.[a-z0-9]([-a-z0-9]*[a-z0-9])?)*/)?[A-Za-z0-9]([A-Za-z0-9_.-]*[A-Za-z0-9])?$`.
Regex character ranges compare code points, which is exactly `Char`'s order. -/

/-- The class `[a-z0-9]`. -/
def isLowerAlnum (c : Char) : Bool :=
  ('a' ≤ c && c ≤ 'z') || ('0' ≤ c && c ≤ '9')

/-- The class `[-a-z0-9]`. -/
def isLowerAlnumDash (c : Char) : Bool :=
  c = '-' || isLowerAlnum c

/-- The class `[A-Za-z0-9]`. -/
def isAlnum (c : Char) : Bool :=
  ('A' ≤ c && c ≤ 'Z') || ('a' ≤ c && c ≤ 'z') || ('0' ≤ c && c ≤ '9')

/-- The class `[A-Za-z0-9_.-]`. -/
def isKeyChar (c : Char) : Bool :=
  isAlnum c || c = '_' || c = '.' || c = '-'

/-- A `(...)?` group: epsilon or the body. -/
def optRE (r : RE) : RE := .alt .eps r

/-- One DNS label of the optional subdomain part:
`[a-z0-9]([-a-z0-9]*[a-z0-9])?`. -/
def labelRE : RE :=
  .cat (.cls isLowerAlnum)
    (optRE (.cat (.star (.cls isLowerAlnumDash)) (.cls isLowerAlnum)))

/-- A dot followed by a label: `\.[a-z0-9]([-a-z0-9]*[a-z0-9])?`. -/
def dotLabelRE : RE := .cat (.cls (fun c => c = '.')) labelRE

/-- The body of the optional group before the key:
`[a-z0-9]([-a-z0-9]*[a-z0-9])?(\.[a-z0-9]([-a-z0-9]*[a-z0-9])?)*/`,
a dot-separated DNS subdomain terminated by a slash. -/
def subdomainSlashRE : RE :=
  .cat labelRE (.cat (.star dotLabelRE) (.cls (fun c => c = '/')))

/-- The mandatory key segment: `[A-Za-z0-9]([A-Za-z0-9_.-]*[A-Za-z0-9])?`. -/
def keyRE : RE :=
  .cat (.cls isAlnum) (optRE (.cat (.star (.cls isKeyChar)) (.cls isAlnum)))

/-- The full pattern `ANNOTATIONS_NAME_REGEX` of `settings.rs`, as an AST:
an optional subdomain-plus-slash group followed by the key.  The `^`/`$`
anchors are realised by `RE.reMatch` being a full-string matcher. -/
def ANNOTATIONS_NAME_REGEX : RE := .cat (optRE subdomainSlashRE) keyRE

/-- The check `annotations_name_regex.is_match(annot)` performed by
`Settings::validate` on one configured annotation name. -/
def validAnnotationName (s : String) : Bool :=
  RE.reMatch ANNOTATIONS_NAME_REGEX s.data

/-! ## The settings model -/

/-- Modelled from the spec: the external `Criterion` type
(`criteria_policy_base::settings::BaseSettings`), whose source is not part of
this repository.  It is a tagged union over set-based matching strategies,
each variant carrying the configured set of annotation-key strings; the two
variants used by this repository are the "match if any are present" and
"match if all are present" strategies.  The configured set is embedded as a
list of strings (the iteration order of the underlying hash set is
unspecified). -/
inductive BaseSettings : Type where
  | ContainsAnyOf (values : List String) : BaseSettings
  | ContainsAllOf (values : List String) : BaseSettings

/-- Modelled from the spec: `values()`, read access to the configured set of
strings of the wrapped criterion. -/
def BaseSettings.values : BaseSettings → List String
  | .ContainsAnyOf vs => vs
  | .ContainsAllOf vs => vs

/-- Modelled from the spec: the criterion's own structural `validate()`,
which fails exactly when the configured set is empty, with a message of its
own (the spec does not fix the text; this module only propagates it
verbatim). -/
def BaseSettings.validate (b : BaseSettings) : Except String Unit :=
  if b.values.isEmpty then .error "the configured set of values is empty"
  else .ok ()

/-- The `Settings` newtype wrapper of `settings.rs`: `Settings(BaseSettings)`.
The single positional field is named `base`. -/
structure Settings : Type where
  base : BaseSettings

/-- The `Default` impl of `settings.rs`: `ContainsAnyOf` with an empty set. -/
def Settings.default : Settings :=
  Settings.mk (BaseSettings.ContainsAnyOf [])

/-- The `Validatable::validate` impl of `settings.rs`.  The `?` on
`self.0.validate()` is the first `match`; the `filter_map` keeps exactly the
names the regex rejects; `join(", ")` is `String.intercalate ", "`; the
`format!` is the string append.  (`Regex::new(..).unwrap()` compiles the
static pattern; its success is claim C10 and is implicit here, the AST being
total by construction.) -/
def Settings.validate (s : Settings) : Except String Unit :=
  match s.base.validate with
  | .error e => .error e
  | .ok _ =>
    let annots := s.base.values
    let invalid_annot : List String :=
      annots.filterMap (fun annot =>
        if validAnnotationName annot then none else some annot)
    if !invalid_annot.isEmpty then
      .error ("Invalid annotation names: " ++ String.intercalate ", " invalid_annot)
    else
      .ok ()

/-- The same computation as `Settings.validate`, in explicit state-passing
style: the returned second component is the `Settings` value as it stands
after the call (the Rust method takes `&self`; every exit path leaves the
value untouched, which theorem C8 states). -/
def Settings.validateTracked (s : Settings) : Except String Unit × Settings :=
  match s.base.validate with
  | .error e => (.error e, s)
  | .ok _ =>
    let annots := s.base.values
    let invalid_annot : List String :=
      annots.filterMap (fun annot =>
        if validAnnotationName annot then none else some annot)
    if !invalid_annot.isEmpty then
      (.error ("Invalid annotation names: " ++ String.intercalate ", " invalid_annot), s)
    else
      (.ok (), s)

/-! ## Structural characterisation of the pattern's language

`IsRun e i s` is the language of `(cls e)((cls i)*(cls e))?`: a nonempty
word whose first and last characters satisfy `e` and whose interior
characters satisfy `i`.  Both the DNS label and the key segment of the
pattern have this shape.  None of the predicates below mentions any length,
which is the content of claim C6. -/

/-- Words of `e(i*e)?`: a single `e`-character, or an `e`-character, interior
`i`-characters, and a final `e`-character. -/
def IsRun (e i : Char → Bool) (s : List Char) : Prop :=
  (∃ c, s = [c] ∧ e c = true) ∨
  ∃ c m d, s = c :: m ++ [d] ∧ e c = true ∧ e d = true ∧ ∀ x ∈ m, i x = true

/-- Shape of one DNS label of the subdomain part. -/
def IsLabel : List Char → Prop := IsRun isLowerAlnum isLowerAlnumDash

/-- Shape of the key segment. -/
def IsKey : List Char → Prop := IsRun isAlnum isKeyChar

/-- Shape of the whole optional group: dot-separated labels then `/`. -/
def IsSubdomainSlash (s : List Char) : Prop :=
  ∃ (l : List Char) (ls : List (List Char)), IsLabel l ∧ (∀ x ∈ ls, IsLabel x) ∧
    s = l ++ (ls.map (fun x => '.' :: x)).flatten ++ ['/']

/-- Shape of a full valid annotation name: a key, optionally preceded by a
subdomain part ending in `/`. -/
def ValidShape (s : String) : Prop :=
  IsKey s.data ∨
  ∃ p k, s.data = p ++ k ∧ IsSubdomainSlash p ∧ IsKey k

theorem star_cls_iff (p : Char → Bool) (s : List Char) :
    RE.Lang (.star (.cls p)) s ↔ ∀ x ∈ s, p x = true := by
  constructor
  · intro h
    refine RE.star_elim h (fun s => ∀ x ∈ s, p x = true) ?_ ?_
    · intro x hx; cases hx
    · intro s₁ s₂ h₁ h₂ x hx
      rcases RE.lang_cls_iff.mp h₁ with ⟨c, rfl, hc⟩
      rcases List.mem_append.mp hx with hx | hx
      · rcases List.mem_singleton.mp hx with rfl
        exact hc
      · exact h₂ x hx
  · intro h
    induction s with
    | nil => exact RE.Lang.starNil
    | cons c t ih =>
      have : RE.Lang (.star (.cls p)) ([c] ++ t) :=
        RE.Lang.starCons (RE.Lang.cls (h c (List.mem_cons_self c t)))
          (ih fun x hx => h x (List.mem_cons_of_mem c hx))
      simpa using this

theorem run_lang_iff (e i : Char → Bool) (s : List Char) :
    RE.Lang (.cat (.cls e) (optRE (.cat (.star (.cls i)) (.cls e)))) s ↔
      IsRun e i s := by
  constructor
  · intro h
    rcases RE.lang_cat_iff.mp h with ⟨s₁, s₂, rfl, h₁, h₂⟩
    rcases RE.lang_cls_iff.mp h₁ with ⟨c, rfl, hc⟩
    rcases RE.lang_alt_iff.mp h₂ with h₂ | h₂
    · rcases RE.lang_eps_iff.mp h₂ with rfl
      exact Or.inl ⟨c, by simp, hc⟩
    · rcases RE.lang_cat_iff.mp h₂ with ⟨m, s₃, rfl, hm, h₃⟩
      rcases RE.lang_cls_iff.mp h₃ with ⟨d, rfl, hd⟩
      exact Or.inr ⟨c, m, d, by simp, hc, hd, (star_cls_iff i m).mp hm⟩
  · intro h
    rcases h with ⟨c, rfl, hc⟩ | ⟨c, m, d, rfl, hc, hd, hm⟩
    · have : RE.Lang (.cat (.cls e) (optRE (.cat (.star (.cls i)) (.cls e))))
          ([c] ++ []) :=
        RE.Lang.cat (RE.Lang.cls hc) (RE.Lang.altl RE.Lang.eps)
      simpa using this
    · have : RE.Lang (.cat (.cls e) (optRE (.cat (.star (.cls i)) (.cls e))))
          ([c] ++ (m ++ [d])) :=
        RE.Lang.cat (RE.Lang.cls hc)
          (RE.Lang.altr (RE.Lang.cat ((star_cls_iff i m).mpr hm)
            (RE.Lang.cls hd)))
      simpa using this

theorem label_lang_iff (s : List Char) : RE.Lang labelRE s ↔ IsLabel s :=
  run_lang_iff isLowerAlnum isLowerAlnumDash s

theorem key_lang_iff (s : List Char) : RE.Lang keyRE s ↔ IsKey s :=
  run_lang_iff isAlnum isKeyChar s

theorem dotLabel_lang_iff (s : List Char) :
    RE.Lang dotLabelRE s ↔ ∃ l, IsLabel l ∧ s = '.' :: l := by
  constructor
  · intro h
    rcases RE.lang_cat_iff.mp h with ⟨s₁, s₂, rfl, h₁, h₂⟩
    rcases RE.lang_cls_iff.mp h₁ with ⟨c, rfl, hc⟩
    have hc' : c = '.' := of_decide_eq_true hc
    subst hc'
    exact ⟨s₂, (label_lang_iff s₂).mp h₂, by simp⟩
  · rintro ⟨l, hl, rfl⟩
    have : RE.Lang dotLabelRE (['.'] ++ l) :=
      RE.Lang.cat (RE.Lang.cls (by simp)) ((label_lang_iff l).mpr hl)
    simpa using this

theorem star_dotLabel_iff (s : List Char) :
    RE.Lang (.star dotLabelRE) s ↔
      ∃ ls : List (List Char), (∀ l ∈ ls, IsLabel l) ∧
        s = (ls.map (fun l => '.' :: l)).flatten := by
  constructor
  · intro h
    refine RE.star_elim h
      (fun s => ∃ ls : List (List Char), (∀ l ∈ ls, IsLabel l) ∧
        s = (ls.map (fun l => '.' :: l)).flatten) ⟨[], by simp, by simp⟩ ?_
    intro s₁ s₂ h₁ h₂
    obtain ⟨ls, hls, rfl⟩ := h₂
    rcases (dotLabel_lang_iff s₁).mp h₁ with ⟨l, hl, rfl⟩
    refine ⟨l :: ls, ?_, by simp⟩
    intro x hx
    rcases List.mem_cons.mp hx with rfl | hx
    · exact hl
    · exact hls x hx
  · rintro ⟨ls, hls, rfl⟩
    revert hls
    induction ls with
    | nil => intro _; exact RE.Lang.starNil
    | cons l t ih =>
      intro hls
      have hl : IsLabel l := hls l (List.mem_cons_self l t)
      have ht : ∀ x ∈ t, IsLabel x := fun x hx => hls x (List.mem_cons_of_mem l hx)
      have : RE.Lang (.star dotLabelRE)
          (('.' :: l) ++ (t.map (fun x => '.' :: x)).flatten) :=
        RE.Lang.starCons ((dotLabel_lang_iff _).mpr ⟨l, hl, rfl⟩) (ih ht)
      simpa using this

theorem subdomainSlash_lang_iff (s : List Char) :
    RE.Lang subdomainSlashRE s ↔ IsSubdomainSlash s := by
  constructor
  · intro h
    rcases RE.lang_cat_iff.mp h with ⟨l, s₂, rfl, hl, h₂⟩
    rcases RE.lang_cat_iff.mp h₂ with ⟨t, s₃, rfl, ht, h₃⟩
    rcases RE.lang_cls_iff.mp h₃ with ⟨c, rfl, hc⟩
    have hc' : c = '/' := of_decide_eq_true hc
    subst hc'
    rcases (star_dotLabel_iff t).mp ht with ⟨ls, hls, rfl⟩
    exact ⟨l, ls, (label_lang_iff l).mp hl, hls, by simp⟩
  · rintro ⟨l, ls, hl, hls, rfl⟩
    have : RE.Lang subdomainSlashRE
        (l ++ ((ls.map (fun x => '.' :: x)).flatten ++ ['/'])) :=
      RE.Lang.cat ((label_lang_iff l).mpr hl)
        (RE.Lang.cat ((star_dotLabel_iff _).mpr ⟨ls, hls, rfl⟩)
          (RE.Lang.cls (by simp)))
    simpa using this

/-- The pattern accepts exactly the strings of `ValidShape`. -/
theorem validAnnotationName_iff_shape (s : String) :
    validAnnotationName s = true ↔ ValidShape s := by
  unfold validAnnotationName ValidShape
  rw [RE.reMatch_iff]
  constructor
  · intro h
    rcases RE.lang_cat_iff.mp h with ⟨p, k, hs, hp, hk⟩
    rcases RE.lang_alt_iff.mp hp with hp | hp
    · rcases RE.lang_eps_iff.mp hp with rfl
      simp only [List.nil_append] at hs
      exact Or.inl (hs ▸ (key_lang_iff k).mp hk)
    · exact Or.inr ⟨p, k, hs, (subdomainSlash_lang_iff p).mp hp,
        (key_lang_iff k).mp hk⟩
  · intro h
    rcases h with hk | ⟨p, k, hs, hp, hk⟩
    · have : RE.Lang ANNOTATIONS_NAME_REGEX ([] ++ s.data) :=
        RE.Lang.cat (RE.Lang.altl RE.Lang.eps) ((key_lang_iff _).mpr hk)
      simpa using this
    · rw [hs]
      exact RE.Lang.cat (RE.Lang.altr ((subdomainSlash_lang_iff p).mpr hp))
        ((key_lang_iff k).mpr hk)

/-! ## Helper lemmas about `Settings.validate` -/

theorem filterMap_invalid_eq_filter (l : List String) :
    l.filterMap (fun annot => if validAnnotationName annot then none else some annot) =
      l.filter (fun annot => !validAnnotationName annot) := by
  induction l with
  | nil => rfl
  | cons a t ih =>
    cases hv : validAnnotationName a <;>
      simp [List.filterMap_cons, List.filter_cons, hv, ih]

theorem validate_of_base_ok (s : Settings) (h : s.base.validate = .ok ()) :
    Settings.validate s =
      (if !(s.base.values.filter (fun a => !validAnnotationName a)).isEmpty
       then .error ("Invalid annotation names: " ++ String.intercalate ", "
         (s.base.values.filter (fun a => !validAnnotationName a)))
       else .ok ()) := by
  simp only [Settings.validate, h, filterMap_invalid_eq_filter]

theorem validateTracked_snd (s : Settings) : (Settings.validateTracked s).2 = s := by
  unfold Settings.validateTracked
  cases hv : s.base.validate with
  | error e => rfl
  | ok u =>
    dsimp only
    split
    · rfl
    · rfl

theorem validateTracked_fst (s : Settings) :
    (Settings.validateTracked s).1 = Settings.validate s := by
  unfold Settings.validateTracked Settings.validate
  cases hv : s.base.validate with
  | error e => rfl
  | ok u =>
    dsimp only
    split
    · rfl
    · rfl

/-! ## Helper lemmas about shapes -/

theorem isRun_replicate (e i : Char → Bool) (he : e 'a' = true) (hi : i 'a' = true)
    (n : Nat) : IsRun e i (List.replicate (n + 1) 'a') := by
  cases n with
  | zero => exact Or.inl ⟨'a', rfl, he⟩
  | succ m =>
    refine Or.inr ⟨'a', List.replicate m 'a', 'a', ?_, he, he, ?_⟩
    · rw [List.replicate_succ, List.replicate_succ', List.cons_append]
    · intro x hx
      rw [List.eq_of_mem_replicate hx]
      exact hi

theorem isRun_no_slash (e i : Char → Bool) (he : e '/' = false) (hi : i '/' = false)
    {s : List Char} (h : IsRun e i s) : '/' ∉ s := by
  rcases h with ⟨c, rfl, hc⟩ | ⟨c, m, d, rfl, hc, hd, hm⟩
  · intro hmem
    rcases List.mem_singleton.mp hmem with rfl
    rw [hc] at he
    exact Bool.noConfusion he
  · intro hmem
    rcases List.mem_cons.mp hmem with rfl | hmem
    · rw [hc] at he
      exact Bool.noConfusion he
    · rcases List.mem_append.mp hmem with hmem | hmem
      · rw [hm _ hmem] at hi
        exact Bool.noConfusion hi
      · rcases List.mem_singleton.mp hmem with rfl
        rw [hd] at he
        exact Bool.noConfusion he

theorem isKey_no_slash {s : List Char} (h : IsKey s) : '/' ∉ s :=
  isRun_no_slash isAlnum isKeyChar (by decide) (by decide) h

theorem isLabel_no_slash {s : List Char} (h : IsLabel s) : '/' ∉ s :=
  isRun_no_slash isLowerAlnum isLowerAlnumDash (by decide) (by decide) h

theorem isSubdomainSlash_count_slash {s : List Char} (h : IsSubdomainSlash s) :
    s.count '/' = 1 := by
  rcases h with ⟨l, ls, hl, hls, rfl⟩
  rw [List.count_append, List.count_append]
  have h1 : l.count '/' = 0 := List.count_eq_zero.mpr (isLabel_no_slash hl)
  have h2 : ((ls.map (fun x => '.' :: x)).flatten).count '/' = 0 := by
    rw [List.count_eq_zero]
    intro hmem
    rcases List.mem_flatten.mp hmem with ⟨piece, hpiece, hmem⟩
    rcases List.mem_map.mp hpiece with ⟨x, hx, rfl⟩
    rcases List.mem_cons.mp hmem with hdot | hmem
    · exact absurd hdot (by decide)
    · exact isLabel_no_slash (hls x hx) hmem
  rw [h1, h2]
  rfl

/-! ## Claim theorems -/

/-- C1: the annotation-key naming rule used by `Settings::validate`
classifies each string of the spec's truth table exactly as listed. -/
theorem truth_table_holds :
    validAnnotationName "my-annotation" = true ∧
    validAnnotationName "my.annotation" = true ∧
    validAnnotationName "my_annotation" = true ∧
    validAnnotationName "example.com/my-annotation" = true ∧
    validAnnotationName "foo.bar.baz/qux" = true ∧
    validAnnotationName "a/b" = true ∧
    validAnnotationName "abc/def.ghi_jkl-mno" = true ∧
    validAnnotationName "/my-annotation" = false ∧
    validAnnotationName "example.com/" = false ∧
    validAnnotationName "-my-annotation" = false ∧
    validAnnotationName "example.com/-my-annotation" = false ∧
    validAnnotationName "example.com/my-annotation-" = false ∧
    validAnnotationName "example.com/my annotation" = false ∧
    validAnnotationName "example.com/my@annotation" = false ∧
    validAnnotationName "Example.com/my-annotation" = false ∧
    validAnnotationName "example..com/my-annotation" = false := by
  refine ⟨?_, ?_, ?_, ?_, ?_, ?_, ?_, ?_, ?_, ?_, ?_, ?_, ?_, ?_, ?_, ?_⟩ <;> decide

/-- C5: `Settings::default()` is the `ContainsAnyOf` variant with an empty
set, and this default value does not pass `validate()`. -/
theorem default_empty_any_of_fails_validation :
    Settings.default.base = BaseSettings.ContainsAnyOf [] ∧
    ∃ e, Settings.validate Settings.default = Except.error e :=
  ⟨rfl, ⟨"the configured set of values is empty", rfl⟩⟩

/-- C8: `validate` never mutates the `Settings` value it is called on; the
state-passing rendition returns the input unchanged on every path, with the
same result as `validate`. -/
theorem validate_frame :
    ∀ s : Settings, (Settings.validateTracked s).2 = s ∧
      (Settings.validateTracked s).1 = Settings.validate s :=
  fun s => ⟨validateTracked_snd s, validateTracked_fst s⟩

/-- C10: the pattern is a fixed well-formed expression (in this embedding a
total AST, so the compile-and-unwrap in `validate` cannot panic), `validate`
totally returns `Ok` or `Err` on every input, and the empty string always
fails the naming rule. -/
theorem validate_total_and_empty_name_invalid :
    validAnnotationName "" = false ∧
    ∀ s : Settings, Settings.validate s = Except.ok () ∨
      ∃ e, Settings.validate s = Except.error e := by
  constructor
  · decide
  · intro s
    cases h : Settings.validate s with
    | ok u =>
      cases u
      exact Or.inl rfl
    | error e => exact Or.inr ⟨e, rfl⟩

/-- C2: whenever the wrapped criterion holds a non-empty set of strings each
of which satisfies the naming rule, `validate` returns `Ok`. -/
theorem validate_ok_of_all_names_valid (s : Settings)
    (hne : s.base.values ≠ [])
    (hall : ∀ a ∈ s.base.values, validAnnotationName a = true) :
    Settings.validate s = Except.ok () := by
  have hok : s.base.validate = Except.ok () := by
    unfold BaseSettings.validate
    rw [if_neg]
    intro hc
    exact hne (List.isEmpty_iff.mp hc)
  rw [validate_of_base_ok s hok]
  have hfil : s.base.values.filter (fun a => !validAnnotationName a) = [] := by
    rw [List.filter_eq_nil_iff]
    intro a ha
    rw [hall a ha]
    intro hc
    exact Bool.noConfusion hc
  rw [hfil]
  rfl

/-- C2 witness: a concrete settings value with two well-formed names. -/
theorem validate_ok_of_all_names_valid_witness :
    (Settings.mk (BaseSettings.ContainsAnyOf
      ["my-annotation", "example.com/my-annotation"])).base.values ≠ [] ∧
    (∀ a ∈ (Settings.mk (BaseSettings.ContainsAnyOf
      ["my-annotation", "example.com/my-annotation"])).base.values,
        validAnnotationName a = true) ∧
    Settings.validate (Settings.mk (BaseSettings.ContainsAnyOf
      ["my-annotation", "example.com/my-annotation"])) = Except.ok () := by
  refine ⟨by decide, by decide, ?_⟩
  exact validate_ok_of_all_names_valid _ (by decide) (by decide)

/-- C3: when the criterion's own validation passes but some configured name
fails the rule, `validate` errors with the exact message listing exactly the
ill-formed names (each exactly once when the configured set has no
duplicates, and no well-formed one), joined by a comma and a space. -/
theorem validate_error_exact_invalid_list (s : Settings)
    (hok : s.base.validate = Except.ok ())
    (hbad : ∃ a ∈ s.base.values, validAnnotationName a = false)
    (hnd : s.base.values.Nodup) :
    Settings.validate s = Except.error ("Invalid annotation names: " ++
      String.intercalate ", "
        (s.base.values.filter (fun a => !validAnnotationName a))) ∧
    (∀ a, a ∈ s.base.values.filter (fun a => !validAnnotationName a) ↔
      a ∈ s.base.values ∧ validAnnotationName a = false) ∧
    (s.base.values.filter (fun a => !validAnnotationName a)).Nodup := by
  have hmem : ∀ a, a ∈ s.base.values.filter (fun a => !validAnnotationName a) ↔
      a ∈ s.base.values ∧ validAnnotationName a = false := by
    intro a
    rw [List.mem_filter, Bool.not_eq_true']
  obtain ⟨a, ha, hv⟩ := hbad
  have hie : (s.base.values.filter (fun a => !validAnnotationName a)).isEmpty
      = false := by
    rw [List.isEmpty_eq_false]
    intro h0
    rw [h0] at hmem
    exact absurd ((hmem a).mpr ⟨ha, hv⟩) (List.not_mem_nil a)
  rw [validate_of_base_ok s hok, hie]
  exact ⟨rfl, hmem, hnd.filter _⟩

/-- C3 witness: one ill-formed name among a well-formed one. -/
theorem validate_error_exact_invalid_list_witness :
    (Settings.mk (BaseSettings.ContainsAllOf
      ["-bad", "good"])).base.validate = Except.ok () ∧
    (∃ a ∈ (Settings.mk (BaseSettings.ContainsAllOf
      ["-bad", "good"])).base.values, validAnnotationName a = false) ∧
    (Settings.mk (BaseSettings.ContainsAllOf
      ["-bad", "good"])).base.values.Nodup ∧
    Settings.validate (Settings.mk (BaseSettings.ContainsAllOf
      ["-bad", "good"])) = Except.error "Invalid annotation names: -bad" := by
  refine ⟨rfl, ⟨"-bad", by decide, by decide⟩, by decide, ?_⟩
  have h := validate_error_exact_invalid_list
    (Settings.mk (BaseSettings.ContainsAllOf ["-bad", "good"]))
    rfl ⟨"-bad", by decide, by decide⟩ (by decide)
  refine h.1.trans (congrArg Except.error ?_)
  decide

/-- C4: whenever the wrapped criterion's own `validate` fails, `Settings`'s
`validate` returns that very error message unchanged; moreover every error
any call reports is exactly one of the two disjoint kinds — the criterion's
own message, or the naming message built only from ill-formed names. -/
theorem validate_propagates_criterion_error (s : Settings) (e : String)
    (h : s.base.validate = Except.error e) :
    Settings.validate s = Except.error e ∧
    ∀ (t : Settings) (m : String), Settings.validate t = Except.error m →
      t.base.validate = Except.error m ∨
      (t.base.validate = Except.ok () ∧
        m = "Invalid annotation names: " ++ String.intercalate ", "
          (t.base.values.filter (fun a => !validAnnotationName a))) := by
  constructor
  · unfold Settings.validate
    rw [h]
  · intro t m hm
    cases hb : t.base.validate with
    | error e' =>
      left
      have hv : Settings.validate t = Except.error e' := by
        unfold Settings.validate
        rw [hb]
      rw [hv] at hm
      injection hm with he
      rw [he]
    | ok u =>
      cases u
      right
      refine ⟨rfl, ?_⟩
      rw [validate_of_base_ok t hb] at hm
      cases hie : (t.base.values.filter (fun a => !validAnnotationName a)).isEmpty with
      | true =>
        rw [hie] at hm
        exact Except.noConfusion hm
      | false =>
        rw [hie] at hm
        injection hm with he
        exact he.symm

/-- C4 witness: the default settings, whose criterion fails structurally. -/
theorem validate_propagates_criterion_error_witness :
    Settings.default.base.validate =
      Except.error "the configured set of values is empty" ∧
    Settings.validate Settings.default =
      Except.error "the configured set of values is empty" := by
  refine ⟨rfl, ?_⟩
  exact (validate_propagates_criterion_error Settings.default
    "the configured set of values is empty" rfl).1

/-- C6: the naming rule is a pure shape check — acceptance is equivalent to
the length-free `ValidShape` predicate, and in particular a key segment of
any length `n + 1` (so also beyond 63 characters) and a subdomain part of
any length `n + 1` before the slash (so also beyond 253 characters) are
accepted. -/
theorem naming_rule_checks_shape_not_length :
    (∀ s, validAnnotationName s = true ↔ ValidShape s) ∧
    (∀ n : Nat, validAnnotationName (String.mk (List.replicate (n + 1) 'a')) = true) ∧
    (∀ n : Nat, validAnnotationName
      (String.mk (List.replicate (n + 1) 'a' ++ '/' :: ['b'])) = true) := by
  refine ⟨validAnnotationName_iff_shape, ?_, ?_⟩
  · intro n
    rw [validAnnotationName_iff_shape]
    exact Or.inl (isRun_replicate isAlnum isKeyChar (by decide) (by decide) n)
  · intro n
    rw [validAnnotationName_iff_shape]
    refine Or.inr ⟨List.replicate (n + 1) 'a' ++ ['/'], ['b'], ?_, ?_, ?_⟩
    · show List.replicate (n + 1) 'a' ++ '/' :: ['b'] =
        (List.replicate (n + 1) 'a' ++ ['/']) ++ ['b']
      rw [List.append_assoc]
      rfl
    · refine ⟨List.replicate (n + 1) 'a', [],
        isRun_replicate isLowerAlnum isLowerAlnumDash (by decide) (by decide) n,
        ?_, by simp⟩
      intro x hx
      exact absurd hx (List.not_mem_nil x)
    · exact Or.inl ⟨'b', rfl, by decide⟩

/-- C7: `validate` is deterministic and idempotent — two results of the same
call agree, and a second call on the state returned by a first call returns
the same result. -/
theorem validate_deterministic_idempotent (s : Settings)
    (r₁ r₂ : Except String Unit)
    (h₁ : Settings.validate s = r₁) (h₂ : Settings.validate s = r₂) :
    r₁ = r₂ ∧
    (Settings.validateTracked (Settings.validateTracked s).2).1 = r₁ := by
  constructor
  · rw [← h₁, ← h₂]
  · rw [validateTracked_snd, validateTracked_fst, h₁]

/-- C7 witness: the default settings value. -/
theorem validate_deterministic_idempotent_witness :
    Settings.validate Settings.default =
      Except.error "the configured set of values is empty" ∧
    (Except.error "the configured set of values is empty" : Except String Unit) =
      Except.error "the configured set of values is empty" ∧
    (Settings.validateTracked (Settings.validateTracked Settings.default).2).1 =
      Except.error "the configured set of values is empty" := by
  have h := validate_deterministic_idempotent Settings.default
    (Except.error "the configured set of values is empty")
    (Except.error "the configured set of values is empty") rfl rfl
  exact ⟨rfl, h.1, h.2⟩

/-- C9: any string containing more than one slash is rejected; at most one
slash, ending the optional subdomain part, can occur in an accepted name. -/
theorem rejects_more_than_one_slash (s : String)
    (h : 2 ≤ s.data.count '/') :
    validAnnotationName s = false := by
  cases hv : validAnnotationName s with
  | false => rfl
  | true =>
    exfalso
    have hshape := (validAnnotationName_iff_shape s).mp hv
    rcases hshape with hk | ⟨p, k, hs, hp, hk⟩
    · rw [List.count_eq_zero.mpr (isKey_no_slash hk)] at h
      omega
    · rw [hs, List.count_append,
        List.count_eq_zero.mpr (isKey_no_slash hk),
        isSubdomainSlash_count_slash hp] at h
      omega

/-- C9 witness: the string with two slashes from the claim. -/
theorem rejects_more_than_one_slash_witness :
    2 ≤ ("a/b/c" : String).data.count '/' ∧
    validAnnotationName "a/b/c" = false :=
  ⟨by decide, rejects_more_than_one_slash "a/b/c" (by decide)⟩
